import Mathlib

/-!
Verification development for the Uniprot_Fetcher_for_ProtGPS repository
(source files `uniprot_fetcher.py` and `fetcher_with_file.py`).

Text is modelled as `List Char`.  Python `re.match` with the pattern
`([A-Z])(\d+)([A-Z]{1,3})` (the same pattern literal in both files) is
modelled by `reMatchMutation`; note that `re.match` anchors only at the
start of the string, so characters after the matched groups are ignored.
The formatted error strings returned by `apply_mutation` are modelled by
the inductive `MutError`, whose constructors carry exactly the values
interpolated into the corresponding Python f-strings.
-/

/-- The character class written as A-Z in the mutation-code pattern: an
ASCII uppercase letter. -/
def isUpperAZ (c : Char) : Bool := 'A' ≤ c && c ≤ 'Z'

/-- The digit character class of the mutation-code pattern. -/
def isDigit09 (c : Char) : Bool := '0' ≤ c && c ≤ '9'

/-- ASCII whitespace, the characters removed from both ends by Python
str.strip (the Unicode whitespace code points play no role here: the
stripped text is built from uppercase residues and newlines). -/
def isPyWS (c : Char) : Bool :=
  c = ' ' || c = '\t' || c = '\n' || c = '\r' || c = '\x0b' || c = '\x0c'

/-- Numeric value of the matched digit group, as Python int applied to it. -/
def digitsToNat (ds : List Char) : Nat :=
  ds.foldl (fun acc d => 10 * acc + (d.toNat - '0'.toNat)) 0

/-- Python re.match of the pattern ([A-Z])(\d+)([A-Z]{1,3}) against the
mutation code: anchored at the start only.  The first character must be an
uppercase letter; the greedy \d+ group takes the maximal digit run (no
backtracking can help, since group three cannot start with a digit); the
greedy third group takes up to three uppercase letters.  Remaining trailing
characters are ignored, exactly as Python re.match ignores them. -/
def reMatchMutation (mutation_code : List Char) :
    Option (Char × List Char × List Char) :=
  match mutation_code with
  | [] => none
  | c :: rest =>
    if isUpperAZ c then
      let digits := rest.takeWhile isDigit09
      if digits.length = 0 then none
      else
        let after := rest.drop digits.length
        let reps := (after.takeWhile isUpperAZ).take 3
        if reps.length = 0 then none
        else some (c, digits, reps)
    else none

/-- The error strings produced by apply_mutation, one constructor per
f-string of the source, carrying the values the source interpolates:
the out-of-range message states the sequence length, and the mismatch
message states the expected residue, the residue found, and the 1-based
position. -/
inductive MutError where
  | invalidFormat : MutError
  | outOfRange (seqLen : Nat) : MutError
  | mismatch (expected found : Char) (position1 : Nat) : MutError
deriving DecidableEq, Repr

/-- The mutation tag of the formatters: Python evaluates
f"[\x7bmutation\x7d]" if mutation else "[WT]", so both None and the empty
string give the wild-type tag. -/
def mutationTag (mutation : Option (List Char)) : List Char :=
  match mutation with
  | none => "[WT]".toList
  | some m => if m.isEmpty then "[WT]".toList else "[".toList ++ m ++ "]".toList

/-- The fields of the UniProt JSON record that the two source files read.
genes holds the geneName values of the "genes" entry, empty when the key is
absent or the list empty (the two cases are not distinguished by the code:
both fall back to "Unknown" in the FASTA header). -/
structure UniprotData where
  primaryAccession : List Char
  recommendedFullName : List Char
  scientificName : List Char
  commonName : Option (List Char)
  genes : List (List Char)
  sequenceValue : List Char

namespace FetcherWithFile

/-- format_sequence_entry of fetcher_with_file.py: the comment line is
# UniProt acc tag - name (organism), and the sequence is returned
unchanged. -/
def format_sequence_entry (data : UniprotData) (mutation : Option (List Char)) :
    List Char × List Char :=
  let mutation_info := mutationTag mutation
  let comment :=
    "# UniProt ".toList ++ data.primaryAccession ++ " ".toList ++ mutation_info
      ++ " - ".toList ++ data.recommendedFullName
      ++ " (".toList ++ data.scientificName ++ ")".toList
  (comment, data.sequenceValue)

/-- The body of apply_mutation after the regex match, with p the parsed
1-based position (Python computes the signed index p - 1; index < 0 is
exactly p = 0 here).  The inner match on the optional element is dead code:
the range check just before it guarantees the index is in bounds (Python
indexing would raise there, and never does). -/
def applyAt (sequence : List Char) (orig_aa : Char) (p : Nat)
    (new_aa : List Char) : Option (List Char) × Option MutError :=
  if p = 0 ∨ sequence.length ≤ p - 1 then
    (none, some (MutError.outOfRange sequence.length))
  else
    match sequence[p - 1]? with
    | none => (none, some (MutError.outOfRange sequence.length))
    | some found =>
      if found ≠ orig_aa then
        (none, some (MutError.mismatch orig_aa found p))
      else if new_aa = "TER".toList then
        (some (sequence.take (p - 1)), none)
      else
        (some (sequence.take (p - 1) ++ new_aa ++ sequence.drop (p - 1 + 1)),
          none)

/-- apply_mutation of fetcher_with_file.py: returns the pair
(mutated_sequence, error), exactly one of the two being present. -/
def apply_mutation (sequence mutation_code : List Char) :
    Option (List Char) × Option MutError :=
  match reMatchMutation mutation_code with
  | none => (none, some MutError.invalidFormat)
  | some (orig_aa, digits, new_aa) =>
    applyAt sequence orig_aa (digitsToNat digits) new_aa

/-- The loop of format_fasta_entry: each 60-character slice of the sequence
followed by a newline. -/
def wrapLoop (s : List Char) : List Char :=
  match s with
  | [] => []
  | c :: cs => ((c :: cs).take 60 ++ ['\n']) ++ wrapLoop ((c :: cs).drop 60)
termination_by s.length
decreasing_by simp [List.length_drop]; omega

/-- Python str.strip: whitespace removed from both ends. -/
def pyStrip (s : List Char) : List Char :=
  ((s.dropWhile isPyWS).reverse.dropWhile isPyWS).reverse

/-- The FASTA header line built by format_fasta_entry:
gene, organism (common name when present, else scientific), accession and
mutation tag, separated by vertical bars after a leading marker. -/
def fastaHeader (data : UniprotData) (mutation_code : Option (List Char)) :
    List Char :=
  let gene := match data.genes with
    | [] => "Unknown".toList
    | g :: _ => g
  let organism := data.commonName.getD data.scientificName
  ">".toList ++ gene ++ "|".toList ++ organism ++ "|".toList
    ++ data.primaryAccession ++ "|".toList ++ mutationTag mutation_code

/-- format_fasta_entry of fetcher_with_file.py: the header line, a newline,
then the wrapped sequence with the trailing whitespace stripped. -/
def format_fasta_entry (data : UniprotData) (sequence : List Char)
    (mutation_code : Option (List Char)) : List Char :=
  fastaHeader data mutation_code ++ ['\n'] ++ pyStrip (wrapLoop sequence)

/-- The 60-character slices of a sequence, one per iteration of the
format_fasta_entry loop. -/
def chunks60 (s : List Char) : List (List Char) :=
  match s with
  | [] => []
  | c :: cs => (c :: cs).take 60 :: chunks60 ((c :: cs).drop 60)
termination_by s.length
decreasing_by simp [List.length_drop]; omega

/-- Lines joined by single newlines, with no trailing newline. -/
def joinNl : List (List Char) → List Char
  | [] => []
  | [l] => l
  | l :: l2 :: ls => l ++ '\n' :: joinNl (l2 :: ls)

/-- The sequence portion of a FASTA block: everything after the first
newline, with the remaining newlines removed. -/
def seqLinesConcat (block : List Char) : List Char :=
  ((block.dropWhile (fun c => c != '\n')).drop 1).filter (fun c => c != '\n')

/-- The three parallel session lists the Add to List handler appends to. -/
structure SessionLists where
  sequences : List (List Char)
  labels : List (List Char)
  fasta_sequences : List (List Char)
deriving DecidableEq, Repr

/-- The two session actions that edit the collected lists: the Add to List
handler (with the formatted entry, reordered label and FASTA entry it
computed), and the Clear Lists handler. -/
inductive ListAction where
  | addToList (formatted_entry reordered_label fasta_entry : List Char)
  | clearLists
deriving DecidableEq, Repr

/-- One button press: Add to List appends to the three lists only when the
formatted entry is not already among sequences; Clear Lists empties all
three. -/
def stepList (s : SessionLists) : ListAction → SessionLists
  | ListAction.addToList e l f =>
    if e ∈ s.sequences then s
    else ⟨s.sequences ++ [e], s.labels ++ [l], s.fasta_sequences ++ [f]⟩
  | ListAction.clearLists => ⟨[], [], []⟩

/-- The session lists after a series of button presses, starting from the
initial empty state. -/
def runActions (acts : List ListAction) : SessionLists :=
  acts.foldl stepList ⟨[], [], []⟩

end FetcherWithFile

namespace UniprotFetcher

/-- format_sequence_entry of uniprot_fetcher.py: the comment line is
# UniProt acc - name (organism), followed by a space and the bracketed
mutation code only when a (truthy) mutation was passed; nothing is appended
in the wild-type case. -/
def format_sequence_entry (data : UniprotData) (mutation : Option (List Char)) :
    List Char × List Char :=
  let mutation_info : List Char := match mutation with
    | none => []
    | some m => if m.isEmpty then [] else " [".toList ++ m ++ "]".toList
  let comment :=
    "# UniProt ".toList ++ data.primaryAccession ++ " - ".toList
      ++ data.recommendedFullName ++ " (".toList ++ data.scientificName
      ++ ")".toList ++ mutation_info
  (comment, data.sequenceValue)

/-- The body of apply_mutation of uniprot_fetcher.py after the regex match;
the function text is identical to the one in fetcher_with_file.py.  The
inner match on the optional element is dead code, as in the other file. -/
def applyAt (sequence : List Char) (orig_aa : Char) (p : Nat)
    (new_aa : List Char) : Option (List Char) × Option MutError :=
  if p = 0 ∨ sequence.length ≤ p - 1 then
    (none, some (MutError.outOfRange sequence.length))
  else
    match sequence[p - 1]? with
    | none => (none, some (MutError.outOfRange sequence.length))
    | some found =>
      if found ≠ orig_aa then
        (none, some (MutError.mismatch orig_aa found p))
      else if new_aa = "TER".toList then
        (some (sequence.take (p - 1)), none)
      else
        (some (sequence.take (p - 1) ++ new_aa ++ sequence.drop (p - 1 + 1)),
          none)

/-- apply_mutation of uniprot_fetcher.py. -/
def apply_mutation (sequence mutation_code : List Char) :
    Option (List Char) × Option MutError :=
  match reMatchMutation mutation_code with
  | none => (none, some MutError.invalidFormat)
  | some (orig_aa, digits, new_aa) =>
    applyAt sequence orig_aa (digitsToNat digits) new_aa

end UniprotFetcher

/-! ### Helper lemmas about the character classes and the matcher -/

/-- An uppercase letter is not a digit: the two character classes of the
pattern are disjoint, so the greedy digit group never has to backtrack. -/
theorem upperAZ_not_digit {c : Char} (h : isUpperAZ c = true) :
    isDigit09 c = false := by
  simp only [isUpperAZ, Bool.and_eq_true, decide_eq_true_eq] at h
  cases hd : isDigit09 c with
  | false => rfl
  | true =>
    exfalso
    simp only [isDigit09, Bool.and_eq_true, decide_eq_true_eq] at hd
    exact absurd (le_trans h.1 hd.2) (by decide)

/-- An uppercase letter is not whitespace, so str.strip never removes a
residue. -/
theorem upperAZ_not_ws {c : Char} (h : isUpperAZ c = true) :
    isPyWS c = false := by
  simp only [isUpperAZ, Bool.and_eq_true, decide_eq_true_eq] at h
  cases hw : isPyWS c with
  | false => rfl
  | true =>
    exfalso
    simp only [isPyWS, Bool.or_eq_true, decide_eq_true_eq] at hw
    rcases hw with ((((h1 | h1) | h1) | h1) | h1) | h1 <;> subst h1 <;>
      exact absurd h.1 (by decide)

/-- An uppercase letter is not a newline. -/
theorem upperAZ_ne_nl {c : Char} (h : isUpperAZ c = true) : c ≠ '\n' := by
  intro heq
  subst heq
  exact absurd h (by decide)

/-- The list of the three-letter termination marker. -/
theorem TER_toList : "TER".toList = ['T', 'E', 'R'] := rfl

/-- Dropping the length of the matched takeWhile run reaches the dropWhile
remainder. -/
theorem drop_length_takeWhile (p : Char → Bool) (l : List Char) :
    l.drop (l.takeWhile p).length = l.dropWhile p := by
  induction l with
  | nil => rfl
  | cons a l ih =>
    by_cases h : p a
    · simp only [List.takeWhile_cons_of_pos h, List.dropWhile_cons_of_pos h,
        List.length_cons, List.drop_succ_cons, ih]
    · simp only [List.takeWhile_cons_of_neg h, List.dropWhile_cons_of_neg h,
        List.length_nil, List.drop_zero]

/-- takeWhile is the identity on a list all of whose elements satisfy the
predicate. -/
theorem takeWhile_eq_self_of_all (p : Char → Bool) (l : List Char)
    (h : ∀ a ∈ l, p a = true) : l.takeWhile p = l := by
  induction l with
  | nil => rfl
  | cons a l2 ih =>
    rw [List.takeWhile_cons_of_pos (h a (by simp))]
    rw [ih (fun x hx => h x (List.mem_cons_of_mem a hx))]

/-- What the matcher returns on a code that starts with an uppercase
letter, a nonempty digit run, and a remainder that does not start with a
digit: the digit group is exactly the run, and the replacement group is up
to three uppercase letters of the remainder. -/
theorem reMatchMutation_eq (c : Char) (ds rest : List Char)
    (hc : isUpperAZ c = true) (hds : ∀ d ∈ ds, isDigit09 d = true)
    (hne : ds ≠ []) (hrest : rest.takeWhile isDigit09 = []) :
    reMatchMutation (c :: (ds ++ rest)) =
      if ((rest.takeWhile isUpperAZ).take 3).length = 0 then none
      else some (c, ds, (rest.takeWhile isUpperAZ).take 3) := by
  have hdig : (ds ++ rest).takeWhile isDigit09 = ds := by
    rw [List.takeWhile_append_of_pos (by simpa using hds), hrest, List.append_nil]
  have hlen : ¬ (ds.length = 0) := by
    simpa [List.length_eq_zero] using hne
  simp only [reMatchMutation, hc, if_true, hdig]
  rw [if_neg hlen, List.drop_left]

/-- The matcher on a code that is exactly an uppercase letter, a digit run
and a replacement group of one to three uppercase letters. -/
theorem reMatchMutation_exact (c : Char) (ds rs : List Char)
    (hc : isUpperAZ c = true) (hds : ∀ d ∈ ds, isDigit09 d = true)
    (hne : ds ≠ []) (hrs : ∀ x ∈ rs, isUpperAZ x = true)
    (hrs1 : rs ≠ []) (hrs3 : rs.length ≤ 3) :
    reMatchMutation (c :: (ds ++ rs)) = some (c, ds, rs) := by
  have h1 : rs.takeWhile isDigit09 = [] := by
    cases rs with
    | nil => rfl
    | cons r rs' =>
      have hd : ¬ (isDigit09 r = true) := by
        simp [upperAZ_not_digit (hrs r (by simp))]
      simp [List.takeWhile_cons_of_neg hd]
  have h2 : rs.takeWhile isUpperAZ = rs := takeWhile_eq_self_of_all _ _ hrs
  rw [reMatchMutation_eq c ds rs hc hds hne h1, h2, List.take_of_length_le hrs3,
    if_neg (by simpa [List.length_eq_zero] using hrs1)]

/-- The checked application never reports the format error: it returns the
range error, the mismatch error, or a mutated sequence. -/
theorem applyAt_ne_invalid (S : List Char) (o : Char) (p : Nat)
    (nw : List Char) :
    FetcherWithFile.applyAt S o p nw ≠ (none, some MutError.invalidFormat) := by
  unfold FetcherWithFile.applyAt
  split
  · simp
  · split
    · simp
    · split
      · simp
      · split
        · simp
        · simp

/-! ### Claims about the mutation applier -/

/-- Claim C9: the apply_mutation functions of uniprot_fetcher.py and
fetcher_with_file.py are extensionally equal: on every sequence and every
mutation code they return identical (result, error) pairs. -/
theorem apply_mutation_files_agree :
    ∀ sequence mutation_code : List Char,
      UniprotFetcher.apply_mutation sequence mutation_code =
        FetcherWithFile.apply_mutation sequence mutation_code :=
  fun _ _ => rfl

/-- Claim C4: when the code parses and the residue of the sequence at the
0-based index differs from the parsed original letter, apply_mutation
returns no sequence and the mismatch error, which carries the expected
residue, the residue actually found, and the 1-based position. -/
theorem mismatch_error (S code : List Char) (o a : Char) (ds nw : List Char)
    (hm : reMatchMutation code = some (o, ds, nw))
    (h1 : 1 ≤ digitsToNat ds)
    (ha : S[digitsToNat ds - 1]? = some a)
    (hne : a ≠ o) :
    FetcherWithFile.apply_mutation S code =
      (none, some (MutError.mismatch o a (digitsToNat ds))) := by
  have hlt : digitsToNat ds - 1 < S.length := by
    rcases List.getElem?_eq_some_iff.mp ha with ⟨h, _⟩
    exact h
  simp only [FetcherWithFile.apply_mutation, hm]
  unfold FetcherWithFile.applyAt
  rw [if_neg (by omega)]
  simp only [ha]
  rw [if_pos hne]

/-- Witness for claim C4 at a concrete input: code A1B against sequence MK
reports that A was expected but M found at position 1. -/
theorem mismatch_error_witness :
    FetcherWithFile.apply_mutation ['M', 'K'] ['A', '1', 'B'] =
      (none, some (MutError.mismatch 'A' 'M' 1)) :=
  mismatch_error ['M', 'K'] ['A', '1', 'B'] 'A' 'M' ['1'] ['B'] (by rfl)
    (by decide) (by rfl) (by decide)

/-- Claim C5: when the code parses, the 1-based position is used as a
0-based index, and position 0 as well as any position beyond the sequence
length yields the out-of-range error, which carries the sequence length;
no sequence is returned. -/
theorem out_of_range_error (S code : List Char) (o : Char) (ds nw : List Char)
    (hm : reMatchMutation code = some (o, ds, nw))
    (hr : digitsToNat ds = 0 ∨ S.length < digitsToNat ds) :
    FetcherWithFile.apply_mutation S code =
      (none, some (MutError.outOfRange S.length)) := by
  simp only [FetcherWithFile.apply_mutation, hm]
  unfold FetcherWithFile.applyAt
  rw [if_pos (by omega)]

/-- Witness for claim C5 at a concrete input: code A5B against the
two-residue sequence MK reports the out-of-range error stating length 2. -/
theorem out_of_range_error_witness :
    FetcherWithFile.apply_mutation ['M', 'K'] ['A', '5', 'B'] =
      (none, some (MutError.outOfRange 2)) :=
  out_of_range_error ['M', 'K'] ['A', '5', 'B'] 'A' ['5'] ['B'] (by rfl)
    (by decide)

/-- Claim C8: the Add to List handler appends to the three session lists
exactly when the formatted plain-text entry is not already among the
collected sequences, appending at the end when it does; consequently after
any series of add and clear actions the collected sequences contain no
duplicate text block. -/
theorem collected_lists_nodup :
    (∀ acts : List FetcherWithFile.ListAction,
      (FetcherWithFile.runActions acts).sequences.Nodup) ∧
    (∀ (s : FetcherWithFile.SessionLists) (e l f : List Char),
      FetcherWithFile.stepList s (FetcherWithFile.ListAction.addToList e l f) =
        if e ∈ s.sequences then s
        else ⟨s.sequences ++ [e], s.labels ++ [l], s.fasta_sequences ++ [f]⟩) := by
  constructor
  · intro acts
    have key : ∀ (as : List FetcherWithFile.ListAction)
        (s : FetcherWithFile.SessionLists), s.sequences.Nodup →
        (as.foldl FetcherWithFile.stepList s).sequences.Nodup := by
      intro as
      induction as with
      | nil => intro s hs; exact hs
      | cons a rest ih =>
        intro s hs
        simp only [List.foldl_cons]
        apply ih
        cases a with
        | addToList e l f =>
          simp only [FetcherWithFile.stepList]
          by_cases he : e ∈ s.sequences
          · rw [if_pos he]; exact hs
          · rw [if_neg he]
            have h := List.Nodup.concat he hs
            rwa [List.concat_eq_append] at h
        | clearLists => simp [FetcherWithFile.stepList]
    exact key acts _ (by simp)
  · intro s e l f
    rfl

/-- Claim C1: a single uppercase replacement letter at an in-range 1-based
position whose sequence residue equals the original letter is applied:
the residue at the 0-based index is replaced, no error is returned, the
length is unchanged, and every other position is unchanged.  The position
is quantified through its decimal digit string ds, whose value is the
position. -/
theorem single_substitution (S : List Char) (orig r : Char) (ds : List Char)
    (hc : isUpperAZ orig = true) (hds : ∀ d ∈ ds, isDigit09 d = true)
    (hnil : ds ≠ []) (hr : isUpperAZ r = true)
    (h1 : 1 ≤ digitsToNat ds) (h2 : digitsToNat ds ≤ S.length)
    (horig : S[digitsToNat ds - 1]? = some orig) :
    FetcherWithFile.apply_mutation S (orig :: (ds ++ [r])) =
      (some (S.set (digitsToNat ds - 1) r), none) ∧
    (S.set (digitsToNat ds - 1) r).length = S.length ∧
    (S.set (digitsToNat ds - 1) r)[digitsToNat ds - 1]? = some r ∧
    ∀ i : Nat, i ≠ digitsToNat ds - 1 →
      (S.set (digitsToNat ds - 1) r)[i]? = S[i]? := by
  have hparse : reMatchMutation (orig :: (ds ++ [r])) = some (orig, ds, [r]) :=
    reMatchMutation_exact orig ds [r] hc hds hnil
      (by intro x hx; simp at hx; subst hx; exact hr) (by simp) (by simp)
  have hlt : digitsToNat ds - 1 < S.length := by omega
  have hset : S.set (digitsToNat ds - 1) r =
      S.take (digitsToNat ds - 1) ++ r :: S.drop (digitsToNat ds - 1 + 1) := by
    rw [List.set_eq_take_append_cons_drop, if_pos hlt]
  refine ⟨?_, ?_, ?_, ?_⟩
  · simp only [FetcherWithFile.apply_mutation, hparse]
    unfold FetcherWithFile.applyAt
    rw [if_neg (by omega)]
    simp only [horig]
    rw [if_neg (by intro h; exact h rfl), if_neg (by simp [TER_toList]), hset]
    simp
  · simp
  · rw [List.getElem?_set_self hlt]
  · intro i hi
    exact List.getElem?_set_ne (Ne.symm hi)

/-- Witness for claim C1 at a concrete input: M1P on MK gives PK. -/
theorem single_substitution_witness :
    FetcherWithFile.apply_mutation ['M', 'K'] ('M' :: (['1'] ++ ['P'])) =
      (some ((['M', 'K'] : List Char).set (digitsToNat ['1'] - 1) 'P'), none) :=
  (single_substitution ['M', 'K'] 'M' 'P' ['1'] (by decide) (by decide)
    (by decide) (by decide) (by decide) (by decide) (by rfl)).1

/-- Claim C2: a termination mutation whose 1-based position is in range and
whose original letter matches truncates the sequence to the residues
strictly before the 0-based index, that is to length p - 1, with no
error. -/
theorem termination_truncates (S : List Char) (orig : Char) (ds : List Char)
    (hc : isUpperAZ orig = true) (hds : ∀ d ∈ ds, isDigit09 d = true)
    (hnil : ds ≠ [])
    (h1 : 1 ≤ digitsToNat ds) (h2 : digitsToNat ds ≤ S.length)
    (horig : S[digitsToNat ds - 1]? = some orig) :
    FetcherWithFile.apply_mutation S (orig :: (ds ++ "TER".toList)) =
      (some (S.take (digitsToNat ds - 1)), none) ∧
    (S.take (digitsToNat ds - 1)).length = digitsToNat ds - 1 := by
  have hparse : reMatchMutation (orig :: (ds ++ "TER".toList)) =
      some (orig, ds, "TER".toList) :=
    reMatchMutation_exact orig ds "TER".toList hc hds hnil
      (by intro x hx
          simp only [TER_toList, List.mem_cons, List.not_mem_nil, or_false] at hx
          rcases hx with rfl | rfl | rfl <;> decide)
      (by rw [TER_toList]; simp) (by rw [TER_toList]; simp)
  have hlt : digitsToNat ds - 1 < S.length := by omega
  constructor
  · simp only [FetcherWithFile.apply_mutation, hparse]
    unfold FetcherWithFile.applyAt
    rw [if_neg (by omega)]
    simp only [horig]
    simp
  · rw [List.length_take]
    omega

/-- Witness for claim C2 at a concrete input: K2TER on MK gives M, of
length 1. -/
theorem termination_truncates_witness :
    FetcherWithFile.apply_mutation ['M', 'K'] ('K' :: (['2'] ++ "TER".toList)) =
      (some ((['M', 'K'] : List Char).take (digitsToNat ['2'] - 1)), none) ∧
    ((['M', 'K'] : List Char).take (digitsToNat ['2'] - 1)).length =
      digitsToNat ['2'] - 1 :=
  termination_truncates ['M', 'K'] 'K' ['2'] (by decide) (by decide)
    (by decide) (by decide) (by decide) (by rfl)

/-- Claim C10: a matched replacement group of two letters, or of three
letters other than TER, is spliced in whole in place of the single residue
at the index, so the resulting length is the sequence length plus the
replacement length minus one. -/
theorem multi_letter_replacement (S : List Char) (orig : Char)
    (ds rs : List Char)
    (hc : isUpperAZ orig = true) (hds : ∀ d ∈ ds, isDigit09 d = true)
    (hnil : ds ≠ []) (hrs : ∀ x ∈ rs, isUpperAZ x = true)
    (hlen : rs.length = 2 ∨ (rs.length = 3 ∧ rs ≠ "TER".toList))
    (h1 : 1 ≤ digitsToNat ds) (h2 : digitsToNat ds ≤ S.length)
    (horig : S[digitsToNat ds - 1]? = some orig) :
    FetcherWithFile.apply_mutation S (orig :: (ds ++ rs)) =
      (some (S.take (digitsToNat ds - 1) ++ rs
        ++ S.drop (digitsToNat ds - 1 + 1)), none) ∧
    (S.take (digitsToNat ds - 1) ++ rs
      ++ S.drop (digitsToNat ds - 1 + 1)).length
      = S.length + rs.length - 1 := by
  have hTER : ¬ (rs = "TER".toList) := by
    rcases hlen with h | h
    · intro heq
      rw [heq, TER_toList] at h
      simp at h
    · exact h.2
  have hparse : reMatchMutation (orig :: (ds ++ rs)) = some (orig, ds, rs) :=
    reMatchMutation_exact orig ds rs hc hds hnil hrs
      (by rcases hlen with h | h
          · intro heq; rw [heq] at h; simp at h
          · intro heq; rw [heq] at h; simp at h)
      (by omega)
  have hlt : digitsToNat ds - 1 < S.length := by omega
  constructor
  · simp only [FetcherWithFile.apply_mutation, hparse]
    unfold FetcherWithFile.applyAt
    rw [if_neg (by omega)]
    simp only [horig]
    rw [if_neg (by intro h; exact h rfl), if_neg hTER]
  · simp only [List.length_append, List.length_take, List.length_drop]
    omega

/-- Witness for claim C10 at a concrete input: M1AB on MK gives ABK of
length 3 = 2 + 2 - 1. -/
theorem multi_letter_replacement_witness :
    FetcherWithFile.apply_mutation ['M', 'K'] ('M' :: (['1'] ++ ['A', 'B'])) =
      (some ((['M', 'K'] : List Char).take (digitsToNat ['1'] - 1) ++ ['A', 'B']
        ++ (['M', 'K'] : List Char).drop (digitsToNat ['1'] - 1 + 1)), none) ∧
    ((['M', 'K'] : List Char).take (digitsToNat ['1'] - 1) ++ ['A', 'B']
      ++ (['M', 'K'] : List Char).drop (digitsToNat ['1'] - 1 + 1)).length
      = (['M', 'K'] : List Char).length + (['A', 'B'] : List Char).length - 1 :=
  multi_letter_replacement ['M', 'K'] 'M' ['1'] ['A', 'B'] (by decide)
    (by decide) (by decide) (by decide) (Or.inl (by decide)) (by decide)
    (by decide) (by rfl)

/-- Counterexample to claim C3 as stated: the code M1Pz does not match the
anchored grammar (it has a trailing character), yet apply_mutation does not
report the invalid-format error: re.match ignores the trailing z, matches
the groups M, 1, P, and the substitution is applied. -/
theorem trailing_characters_accepted :
    FetcherWithFile.apply_mutation ['M'] ['M', '1', 'P', 'z'] =
      (some ['P'], none) ∧
    FetcherWithFile.apply_mutation ['M'] ['M', '1', 'P', 'z'] ≠
      (none, some MutError.invalidFormat) := by
  constructor
  · rfl
  · decide

/-- Claim C3 (amended): apply_mutation reports the invalid-format error,
and no sequence, exactly for the codes on which the matcher fails, and the
matcher succeeds exactly on the codes with a prefix consisting of an
uppercase letter, at least one digit, and at least one uppercase letter —
any trailing characters after such a prefix are ignored rather than
rejected, because re.match does not anchor the end of the pattern. -/
theorem invalid_format_iff_no_matching_start :
    (∀ S code : List Char,
      FetcherWithFile.apply_mutation S code =
          (none, some MutError.invalidFormat) ↔
        reMatchMutation code = none) ∧
    (∀ code : List Char,
      (∃ g, reMatchMutation code = some g) ↔
        ∃ (c : Char) (ds rs t : List Char),
          code = c :: (ds ++ (rs ++ t)) ∧ isUpperAZ c = true ∧
          0 < ds.length ∧ ds.all isDigit09 = true ∧
          0 < rs.length ∧ rs.all isUpperAZ = true) := by
  constructor
  · intro S code
    constructor
    · intro h
      cases hm : reMatchMutation code with
      | none => rfl
      | some g =>
        exfalso
        obtain ⟨o, ds, nw⟩ := g
        rw [FetcherWithFile.apply_mutation, hm] at h
        exact applyAt_ne_invalid S o (digitsToNat ds) nw h
    · intro h
      rw [FetcherWithFile.apply_mutation, h]
  · intro code
    constructor
    · rintro ⟨⟨o, ds, nw⟩, hm⟩
      cases code with
      | nil => exact absurd hm (by simp [reMatchMutation])
      | cons c rest =>
        by_cases hc : isUpperAZ c = true
        · simp only [reMatchMutation, hc, if_true] at hm
          by_cases hd : (rest.takeWhile isDigit09).length = 0
          · rw [if_pos hd] at hm
            exact absurd hm (by simp)
          · rw [if_neg hd] at hm
            by_cases hr :
                (((rest.drop (rest.takeWhile isDigit09).length).takeWhile
                  isUpperAZ).take 3).length = 0
            · rw [if_pos hr] at hm
              exact absurd hm (by simp)
            · rw [if_neg hr] at hm
              obtain ⟨rfl, rfl, rfl⟩ :
                  c = o ∧ rest.takeWhile isDigit09 = ds ∧
                  ((rest.drop (rest.takeWhile isDigit09).length).takeWhile
                    isUpperAZ).take 3 = nw := by
                have h1 := congrArg (fun x => Option.map Prod.fst x) hm
                have h2 := congrArg
                  (fun x => Option.map (fun y => y.snd.fst) x) hm
                have h3 := congrArg
                  (fun x => Option.map (fun y => y.snd.snd) x) hm
                simp at h1 h2 h3
                exact ⟨h1, h2, h3⟩
              refine ⟨c, rest.takeWhile isDigit09,
                ((rest.drop (rest.takeWhile isDigit09).length).takeWhile
                  isUpperAZ).take 3,
                ((rest.drop (rest.takeWhile isDigit09).length).takeWhile
                  isUpperAZ).drop 3
                ++ (rest.drop (rest.takeWhile isDigit09).length).dropWhile
                  isUpperAZ, ?_, hc, ?_, ?_, ?_, ?_⟩
              · have hx : rest.drop (rest.takeWhile isDigit09).length =
                    rest.dropWhile isDigit09 := drop_length_takeWhile _ _
                rw [hx]
                have hy :
                    ((rest.dropWhile isDigit09).takeWhile isUpperAZ).take 3
                      ++ (((rest.dropWhile isDigit09).takeWhile
                        isUpperAZ).drop 3
                      ++ (rest.dropWhile isDigit09).dropWhile isUpperAZ) =
                    rest.dropWhile isDigit09 := by
                  rw [← List.append_assoc, List.take_append_drop,
                    List.takeWhile_append_dropWhile]
                rw [hy, List.takeWhile_append_dropWhile]
              · omega
              · rw [List.all_eq_true]
                intro d hd2
                exact List.mem_takeWhile_imp hd2
              · omega
              · rw [List.all_eq_true]
                intro x hx2
                exact List.mem_takeWhile_imp (List.mem_of_mem_take hx2)
        · simp only [reMatchMutation] at hm
          rw [if_neg hc] at hm
          exact absurd hm (by simp)
    · rintro ⟨c, ds, rs, t, rfl, hc, hds, hall, hrs, hup⟩
      have hdsne : ds ≠ [] := by
        intro h
        rw [h] at hds
        simp at hds
      have hdall : ∀ d ∈ ds, isDigit09 d = true := by
        rw [List.all_eq_true] at hall
        exact hall
      have hrest : (rs ++ t).takeWhile isDigit09 = [] := by
        cases rs with
        | nil => simp at hrs
        | cons x rs2 =>
          have hxu : isUpperAZ x = true := by
            rw [List.all_eq_true] at hup
            exact hup x (by simp)
          have hxd : ¬ (isDigit09 x = true) := by
            simp [upperAZ_not_digit hxu]
          simp [List.takeWhile_cons_of_neg hxd]
      rw [reMatchMutation_eq c ds (rs ++ t) hc hdall hdsne hrest]
      have hnz : ¬ ((((rs ++ t).takeWhile isUpperAZ).take 3).length = 0) := by
        cases rs with
        | nil => simp at hrs
        | cons x rs2 =>
          have hxu : isUpperAZ x = true := by
            rw [List.all_eq_true] at hup
            exact hup x (by simp)
          simp [List.takeWhile_cons_of_pos hxu]
      rw [if_neg hnz]
      exact ⟨_, rfl⟩

/-- A concrete fetched record used to instantiate the claims about the
formatters. -/
def sampleRecord : UniprotData :=
  ⟨"P12345".toList, "Prot".toList, "Homo sapiens".toList, none, [],
    "MK".toList⟩

/-- Counterexample to claim C7 as stated: with no mutation code,
format_sequence_entry of uniprot_fetcher.py produces a comment line with
no wild-type tag at all — for a concrete record the line is exactly
# UniProt P12345 - Prot (Homo sapiens), and the tag the claim requires
does not occur in it. -/
theorem no_wildtype_tag_in_uniprot_fetcher :
    (UniprotFetcher.format_sequence_entry sampleRecord none).1 =
      "# UniProt P12345 - Prot (Homo sapiens)".toList ∧
    decide ("[WT]".toList <:+:
      (UniprotFetcher.format_sequence_entry sampleRecord none).1) = false := by
  constructor
  · rfl
  · rfl

/-- Claim C7 (amended): the comment line of fetcher_with_file.py embeds the
accession id, the wild-type tag when no mutation code is given and the
bracketed code when one is given, the recommended full name, and the
organism; the comment line of uniprot_fetcher.py embeds the accession id,
the name and the organism, and appends a space and the bracketed code only
when a mutation code is given — it carries no wild-type tag in the
no-mutation case. -/
theorem comment_line_fields (data : UniprotData) (m : List Char)
    (hm : m ≠ []) :
    data.primaryAccession <:+:
      (FetcherWithFile.format_sequence_entry data none).1 ∧
    "[WT]".toList <:+: (FetcherWithFile.format_sequence_entry data none).1 ∧
    data.recommendedFullName <:+:
      (FetcherWithFile.format_sequence_entry data none).1 ∧
    data.scientificName <:+:
      (FetcherWithFile.format_sequence_entry data none).1 ∧
    ("[".toList ++ m ++ "]".toList) <:+:
      (FetcherWithFile.format_sequence_entry data (some m)).1 ∧
    (UniprotFetcher.format_sequence_entry data none).1 =
      "# UniProt ".toList ++ data.primaryAccession ++ " - ".toList
        ++ data.recommendedFullName ++ " (".toList ++ data.scientificName
        ++ ")".toList ∧
    (UniprotFetcher.format_sequence_entry data (some m)).1 =
      (UniprotFetcher.format_sequence_entry data none).1
        ++ " [".toList ++ m ++ "]".toList := by
  have hme : m.isEmpty = false := by
    rw [List.isEmpty_eq_false]
    exact hm
  have htag : mutationTag (some m) = "[".toList ++ m ++ "]".toList := by
    simp [mutationTag, hme]
  refine ⟨?_, ?_, ?_, ?_, ?_, ?_, ?_⟩
  · refine ⟨"# UniProt ".toList,
      " ".toList ++ mutationTag none ++ " - ".toList
        ++ data.recommendedFullName ++ " (".toList ++ data.scientificName
        ++ ")".toList, ?_⟩
    simp [FetcherWithFile.format_sequence_entry]
  · refine ⟨"# UniProt ".toList ++ data.primaryAccession ++ " ".toList,
      " - ".toList ++ data.recommendedFullName ++ " (".toList
        ++ data.scientificName ++ ")".toList, ?_⟩
    simp [FetcherWithFile.format_sequence_entry, mutationTag]
  · refine ⟨"# UniProt ".toList ++ data.primaryAccession ++ " ".toList
      ++ mutationTag none ++ " - ".toList,
      " (".toList ++ data.scientificName ++ ")".toList, ?_⟩
    simp [FetcherWithFile.format_sequence_entry]
  · refine ⟨"# UniProt ".toList ++ data.primaryAccession ++ " ".toList
      ++ mutationTag none ++ " - ".toList ++ data.recommendedFullName
      ++ " (".toList, ")".toList, ?_⟩
    simp [FetcherWithFile.format_sequence_entry]
  · refine ⟨"# UniProt ".toList ++ data.primaryAccession ++ " ".toList,
      " - ".toList ++ data.recommendedFullName ++ " (".toList
        ++ data.scientificName ++ ")".toList, ?_⟩
    simp [FetcherWithFile.format_sequence_entry, htag]
  · simp [UniprotFetcher.format_sequence_entry]
  · simp [UniprotFetcher.format_sequence_entry, hme]

/-- Witness for claim C7 (amended) at a concrete record and code. -/
theorem comment_line_fields_witness :
    "P12345".toList <:+:
      (FetcherWithFile.format_sequence_entry sampleRecord none).1 :=
  (comment_line_fields sampleRecord ['R'] (by decide)).1

/-! ### The FASTA formatter -/

/-- dropWhile is the identity on a list none of whose elements satisfy the
predicate. -/
theorem dropWhile_eq_self_of_all (p : Char → Bool) (l : List Char)
    (h : ∀ a ∈ l, p a = false) : l.dropWhile p = l := by
  cases l with
  | nil => rfl
  | cons a l2 =>
    apply List.dropWhile_cons_of_neg
    simp [h a (by simp)]

/-- Unfolding of the wrap loop on the empty sequence. -/
theorem wrapLoop_nil : FetcherWithFile.wrapLoop [] = [] := by
  rw [FetcherWithFile.wrapLoop]

/-- Unfolding of the wrap loop on a nonempty sequence: one slice of at most
60 residues, a newline, and the loop on the remainder. -/
theorem wrapLoop_cons (c : Char) (cs : List Char) :
    FetcherWithFile.wrapLoop (c :: cs) =
      ((c :: cs).take 60 ++ ['\n'])
        ++ FetcherWithFile.wrapLoop ((c :: cs).drop 60) := by
  rw [FetcherWithFile.wrapLoop]

/-- Unfolding of the slice list on the empty sequence. -/
theorem chunks60_nil : FetcherWithFile.chunks60 [] = [] := by
  rw [FetcherWithFile.chunks60]

/-- Unfolding of the slice list on a nonempty sequence. -/
theorem chunks60_cons (c : Char) (cs : List Char) :
    FetcherWithFile.chunks60 (c :: cs) =
      (c :: cs).take 60 :: FetcherWithFile.chunks60 ((c :: cs).drop 60) := by
  rw [FetcherWithFile.chunks60]

/-- Unfolding of the line join on at least two lines. -/
theorem joinNl_cons_cons (l1 l2 : List Char) (ls : List (List Char)) :
    FetcherWithFile.joinNl (l1 :: l2 :: ls) =
      l1 ++ '\n' :: FetcherWithFile.joinNl (l2 :: ls) := rfl

/-- The wrapped text of a nonempty all-uppercase sequence starts with a
residue, so stripping on the left removes nothing. -/
theorem wrapLoop_dropWhile (c : Char) (cs : List Char)
    (hc : isUpperAZ c = true) :
    (FetcherWithFile.wrapLoop (c :: cs)).dropWhile isPyWS =
      FetcherWithFile.wrapLoop (c :: cs) := by
  rw [wrapLoop_cons, List.take_succ_cons, List.cons_append, List.cons_append]
  apply List.dropWhile_cons_of_neg
  simp [upperAZ_not_ws hc]

/-- Joined lines starting with a nonempty line are nonempty. -/
theorem joinNl_ne_nil (l : List Char) (ls : List (List Char)) (h : l ≠ []) :
    FetcherWithFile.joinNl (l :: ls) ≠ [] := by
  cases ls with
  | nil => simpa [FetcherWithFile.joinNl] using h
  | cons l2 ls2 => simp [FetcherWithFile.joinNl]

/-- Stripping the wrapped text of an all-uppercase sequence on the right
removes exactly the trailing newline of the last loop iteration: reversed,
dropping leading whitespace of the reversed wrap gives the reversed
newline-joined slices. -/
theorem wrapLoop_reverse_dropWhile :
    ∀ (n : Nat) (s : List Char), s.length ≤ n →
      (∀ c ∈ s, isUpperAZ c = true) →
      (FetcherWithFile.wrapLoop s).reverse.dropWhile isPyWS =
        (FetcherWithFile.joinNl (FetcherWithFile.chunks60 s)).reverse := by
  intro n
  induction n with
  | zero =>
    intro s hlen hup
    have hnil : s = [] := by
      cases s with
      | nil => rfl
      | cons a l => simp at hlen
    subst hnil
    simp [wrapLoop_nil, chunks60_nil, FetcherWithFile.joinNl]
  | succ n ih =>
    intro s hlen hup
    cases s with
    | nil => simp [wrapLoop_nil, chunks60_nil, FetcherWithFile.joinNl]
    | cons a l =>
      have hrev : ∀ x ∈ l.reverse ++ [a], isPyWS x = false := by
        intro x hx
        rcases List.mem_append.mp hx with h1 | h1
        · exact upperAZ_not_ws
            (hup x (List.mem_cons_of_mem a (List.mem_reverse.mp h1)))
        · have hxa : x = a := by simpa using h1
          subst hxa
          exact upperAZ_not_ws (hup x (by simp))
      cases hrest : (a :: l).drop 60 with
      | nil =>
        have hlen60 : (a :: l).length ≤ 60 := by
          have hd := List.length_drop 60 (a :: l)
          rw [hrest] at hd
          simp only [List.length_nil] at hd
          omega
        have htake : (a :: l).take 60 = a :: l := List.take_of_length_le hlen60
        rw [wrapLoop_cons, chunks60_cons, hrest, htake, wrapLoop_nil,
          chunks60_nil]
        simp only [List.append_nil, FetcherWithFile.joinNl,
          List.reverse_append, List.reverse_cons, List.reverse_nil,
          List.nil_append, List.singleton_append]
        rw [List.dropWhile_cons_of_pos (by decide)]
        exact dropWhile_eq_self_of_all _ _ hrev
      | cons r rl =>
        have hlend : ((a :: l).drop 60).length = (a :: l).length - 60 :=
          List.length_drop 60 (a :: l)
        rw [hrest] at hlend
        have hlenr : (r :: rl).length ≤ n := by
          simp only [List.length_cons] at hlend hlen ⊢
          omega
        have hupr : ∀ c ∈ (r :: rl), isUpperAZ c = true := by
          intro c hc
          apply hup
          rw [← hrest] at hc
          exact List.mem_of_mem_drop hc
        have hihr := ih (r :: rl) hlenr hupr
        have hjnn : FetcherWithFile.joinNl
            (FetcherWithFile.chunks60 (r :: rl)) ≠ [] := by
          rw [chunks60_cons]
          apply joinNl_ne_nil
          rw [List.take_succ_cons]
          simp
        have hsplit : FetcherWithFile.joinNl ((a :: l).take 60
              :: FetcherWithFile.chunks60 (r :: rl)) =
            (a :: l).take 60 ++ '\n'
              :: FetcherWithFile.joinNl (FetcherWithFile.chunks60 (r :: rl)) := by
          rw [chunks60_cons r rl]
          exact joinNl_cons_cons _ _ _
        rw [wrapLoop_cons, chunks60_cons, hrest]
        simp only [List.reverse_append, List.reverse_cons, List.reverse_nil,
          List.nil_append, List.singleton_append]
        rw [List.dropWhile_append]
        rw [if_neg (by
          rw [hihr]
          simp only [List.isEmpty_eq_true, List.reverse_eq_nil_iff]
          exact hjnn)]
        rw [hihr, hsplit]
        simp [List.append_assoc]

/-- str.strip applied to the wrapped text of an all-uppercase sequence
yields exactly the slices joined by single newlines. -/
theorem pyStrip_wrapLoop (S : List Char)
    (hS : ∀ c ∈ S, isUpperAZ c = true) :
    FetcherWithFile.pyStrip (FetcherWithFile.wrapLoop S) =
      FetcherWithFile.joinNl (FetcherWithFile.chunks60 S) := by
  cases S with
  | nil => rw [wrapLoop_nil, chunks60_nil]; rfl
  | cons a l =>
    unfold FetcherWithFile.pyStrip
    rw [wrapLoop_dropWhile a l (hS a (by simp))]
    rw [wrapLoop_reverse_dropWhile (a :: l).length (a :: l) le_rfl hS]
    exact List.reverse_reverse _

/-- Every slice produced by the wrap loop has at most 60 residues. -/
theorem chunks60_sizes :
    ∀ (n : Nat) (s : List Char), s.length ≤ n →
      ∀ line ∈ FetcherWithFile.chunks60 s, line.length ≤ 60 := by
  intro n
  induction n with
  | zero =>
    intro s hlen line hline
    cases s with
    | nil => rw [chunks60_nil] at hline; simp at hline
    | cons a l => simp at hlen
  | succ n ih =>
    intro s hlen line hline
    cases s with
    | nil => rw [chunks60_nil] at hline; simp at hline
    | cons a l =>
      rw [chunks60_cons] at hline
      rcases List.mem_cons.mp hline with h1 | h1
      · subst h1
        exact List.length_take_le 60 (a :: l)
      · have hd : ((a :: l).drop 60).length ≤ n := by
          rw [List.length_drop]
          simp only [List.length_cons] at hlen ⊢
          omega
        exact ih ((a :: l).drop 60) hd line h1

/-- The slices concatenate back to the sequence. -/
theorem chunks60_join :
    ∀ (n : Nat) (s : List Char), s.length ≤ n →
      (FetcherWithFile.chunks60 s).flatten = s := by
  intro n
  induction n with
  | zero =>
    intro s hlen
    cases s with
    | nil => rw [chunks60_nil]; rfl
    | cons a l => simp at hlen
  | succ n ih =>
    intro s hlen
    cases s with
    | nil => rw [chunks60_nil]; rfl
    | cons a l =>
      rw [chunks60_cons, List.flatten_cons]
      rw [ih ((a :: l).drop 60) (by
        rw [List.length_drop]
        simp only [List.length_cons] at hlen ⊢
        omega)]
      exact List.take_append_drop 60 (a :: l)

/-- Every character of a slice is a character of the sequence. -/
theorem chunks60_mem :
    ∀ (n : Nat) (s : List Char), s.length ≤ n →
      ∀ line ∈ FetcherWithFile.chunks60 s, ∀ c ∈ line, c ∈ s := by
  intro n
  induction n with
  | zero =>
    intro s hlen line hline
    cases s with
    | nil => rw [chunks60_nil] at hline; simp at hline
    | cons a l => simp at hlen
  | succ n ih =>
    intro s hlen line hline c hc
    cases s with
    | nil => rw [chunks60_nil] at hline; simp at hline
    | cons a l =>
      rw [chunks60_cons] at hline
      rcases List.mem_cons.mp hline with h1 | h1
      · subst h1
        exact List.mem_of_mem_take hc
      · have hd : ((a :: l).drop 60).length ≤ n := by
          rw [List.length_drop]
          simp only [List.length_cons] at hlen ⊢
          omega
        exact List.mem_of_mem_drop
          (ih ((a :: l).drop 60) hd line h1 c hc)

/-- Removing the newlines from newline-joined newline-free lines
concatenates the lines. -/
theorem filter_joinNl :
    ∀ ls : List (List Char),
      (∀ l ∈ ls, ∀ c ∈ l, (c != '\n') = true) →
      (FetcherWithFile.joinNl ls).filter (fun c => c != '\n') = ls.flatten := by
  intro ls
  induction ls with
  | nil => intro _; rfl
  | cons l ls2 ih =>
    intro hall
    cases ls2 with
    | nil =>
      show l.filter (fun c => c != '\n') = l ++ []
      rw [List.append_nil]
      exact List.filter_eq_self.mpr (hall l (by simp))
    | cons l2 ls3 =>
      rw [joinNl_cons_cons, List.flatten_cons, List.filter_append,
        List.filter_eq_self.mpr (hall l (by simp)),
        List.filter_cons_of_neg (by decide),
        ih (by intro x hx; exact hall x (List.mem_cons_of_mem l hx))]

/-- A concrete fetched record used to instantiate the FASTA claims. -/
def fastaRecord : UniprotData :=
  ⟨"Q9Y5B6".toList, "Name".toList, "Homo sapiens".toList,
    some "Human".toList, ["GENE".toList], []⟩

/-- Claim C6: the FASTA block is the header line followed by the sequence
wrapped at 60 characters per line, and concatenating the sequence lines of
the block — dropping the header line and the newlines — restores the
sequence exactly, for sequences of every length, including multiples of 60
and the empty sequence. -/
theorem fasta_roundtrip (data : UniprotData) (S : List Char)
    (mc : Option (List Char))
    (hS : ∀ c ∈ S, isUpperAZ c = true)
    (hH : ∀ c ∈ FetcherWithFile.fastaHeader data mc, c ≠ '\n') :
    FetcherWithFile.format_fasta_entry data S mc =
      FetcherWithFile.fastaHeader data mc ++ '\n'
        :: FetcherWithFile.joinNl (FetcherWithFile.chunks60 S) ∧
    (∀ line ∈ FetcherWithFile.chunks60 S, line.length ≤ 60) ∧
    FetcherWithFile.seqLinesConcat
      (FetcherWithFile.format_fasta_entry data S mc) = S := by
  have hblock : FetcherWithFile.format_fasta_entry data S mc =
      FetcherWithFile.fastaHeader data mc ++ '\n'
        :: FetcherWithFile.joinNl (FetcherWithFile.chunks60 S) := by
    unfold FetcherWithFile.format_fasta_entry
    rw [pyStrip_wrapLoop S hS]
    simp [List.append_assoc, List.singleton_append]
  have hmem : ∀ l ∈ FetcherWithFile.chunks60 S, ∀ c ∈ l,
      (c != '\n') = true := by
    intro l hl c hc
    have hcS : c ∈ S := chunks60_mem S.length S le_rfl l hl c hc
    simp only [bne_iff_ne, ne_eq]
    exact upperAZ_ne_nl (hS c hcS)
  refine ⟨hblock, chunks60_sizes S.length S le_rfl, ?_⟩
  rw [hblock]
  unfold FetcherWithFile.seqLinesConcat
  rw [List.dropWhile_append_of_pos (by
    intro c hc
    simp only [bne_iff_ne, ne_eq]
    exact hH c hc)]
  rw [List.dropWhile_cons_of_neg (by decide)]
  simp only [List.drop_succ_cons, List.drop_zero]
  rw [filter_joinNl (FetcherWithFile.chunks60 S) hmem]
  exact chunks60_join S.length S le_rfl

/-- Witness for claim C6 at a concrete record and a 61-residue sequence,
which wraps onto two lines: re-concatenating the sequence lines of the
block restores the sequence. -/
theorem fasta_roundtrip_witness :
    FetcherWithFile.seqLinesConcat
      (FetcherWithFile.format_fasta_entry fastaRecord
        (List.replicate 61 'A') none) = List.replicate 61 'A' :=
  (fasta_roundtrip fastaRecord (List.replicate 61 'A') none
    (by decide) (by decide)).2.2
